import Mathlib

/-!
Verification of the DHCP server core in `05-py-DHCP/DHCP_03.py`.

The embedding mirrors the Python source:
* an IPv4 address is its four octets (the Python code renders them as a
  dotted string; the rendering is injective on octet quadruples, so
  quadruple equality coincides with the string comparisons the source
  performs);
* `DHCPServer.leased_ips` is a Python dict `MAC -> DHCPLease`; it is
  modelled as an insertion-ordered association list with the dict
  operations (lookup first match, delete all entries of a key, insert at
  the back when the key is absent);
* timestamps (`time.time()` floats) are modelled as integers, which is
  faithful for every comparison the source performs on them;
* the MAC type is a parameter with decidable equality (the source uses
  strings such as "aa:bb:cc:dd:ee:ff").
-/

set_option maxRecDepth 100000
set_option linter.unusedSectionVars false

namespace DHCP

structure IPv4 where
  o1 : Nat
  o2 : Nat
  o3 : Nat
  o4 : Nat
deriving DecidableEq

/-- `DHCPLease`: allocated ip, grant/renew timestamp, duration in seconds. -/
structure DHCPLease where
  ip : IPv4
  start_time : Int
  lease_time : Int
deriving DecidableEq

/-- `DHCPLease.is_expired`: `(time.time() - self.start_time) > self.lease_time`. -/
def DHCPLease.is_expired (l : DHCPLease) (now : Int) : Bool :=
  decide (now - l.start_time > l.lease_time)

/-- The mutable server state: `leased_ips` dict and `available_ips` list. -/
structure ServerState (Mac : Type) where
  leased_ips : List (Mac × DHCPLease)
  available_ips : List IPv4
deriving DecidableEq

variable {Mac : Type} [DecidableEq Mac]

/-- Dict lookup (`self.leased_ips[client_mac]`, first matching key). -/
def lookupLease (t : List (Mac × DHCPLease)) (mac : Mac) : Option DHCPLease :=
  match t with
  | [] => none
  | (m, l) :: rest => if m = mac then some l else lookupLease rest mac

/-- Dict deletion (`del self.leased_ips[client_mac]`). -/
def eraseKey (t : List (Mac × DHCPLease)) (mac : Mac) : List (Mac × DHCPLease) :=
  match t with
  | [] => []
  | (m, l) :: rest => if m = mac then eraseKey rest mac else (m, l) :: eraseKey rest mac

/-- The dict's key sequence. -/
def keys (t : List (Mac × DHCPLease)) : List Mac := t.map Prod.fst

/-- The IPs held by the leases of a table, in table order. -/
def leaseIPs (t : List (Mac × DHCPLease)) : List IPv4 := t.map (fun p => p.2.ip)

/-- The IPs currently held by leases, in table order. -/
def tableIPs (st : ServerState Mac) : List IPv4 := leaseIPs st.leased_ips

/-- `DHCPServer._release_ip`: if the MAC has a lease, append its IP to
`available_ips` and delete the dict entry; otherwise do nothing. -/
def release_ip (st : ServerState Mac) (mac : Mac) : ServerState Mac :=
  match lookupLease st.leased_ips mac with
  | some l =>
      { leased_ips := eraseKey st.leased_ips mac
        available_ips := st.available_ips ++ [l.ip] }
  | none => st

/-- The tail of `DHCPServer._allocate_ip`: `if self.available_ips:
ip = self.available_ips.pop(0); self.leased_ips[client_mac] = DHCPLease(...)`.
The caller guarantees `mac` is absent from the dict here, so the dict
assignment appends at the back. -/
def allocate_fresh (st : ServerState Mac) (mac : Mac) (now lt : Int) :
    Option IPv4 × ServerState Mac :=
  match st.available_ips with
  | ip :: rest =>
      (some ip,
       { leased_ips := st.leased_ips ++ [(mac, ⟨ip, now, lt⟩)]
         available_ips := rest })
  | [] => (none, st)

/-- `DHCPServer._allocate_ip`. -/
def allocate_ip (st : ServerState Mac) (mac : Mac) (now lt : Int) :
    Option IPv4 × ServerState Mac :=
  match lookupLease st.leased_ips mac with
  | some l =>
      if l.is_expired now then allocate_fresh (release_ip st mac) mac now lt
      else (some l.ip, st)
  | none => allocate_fresh st mac now lt

/-- In-place mutation `lease.start_time = time.time()` of the entry for `mac`
(all other entries are untouched). -/
def renewEntry (t : List (Mac × DHCPLease)) (mac : Mac) (now : Int) :
    List (Mac × DHCPLease) :=
  match t with
  | [] => []
  | (m, l) :: rest =>
      (if m = mac then (m, { l with start_time := now }) else (m, l)) ::
        renewEntry rest mac now

/-- `DHCPServer._renew_lease`. -/
def renew_lease (st : ServerState Mac) (mac : Mac) (now : Int) :
    Option IPv4 × ServerState Mac :=
  match lookupLease st.leased_ips mac with
  | some l =>
      if l.is_expired now then (none, st)
      else (some l.ip,
            { leased_ips := renewEntry st.leased_ips mac now
              available_ips := st.available_ips })
  | none => (none, st)

/-- The MACs of the expired leases, in table order (`expired_list` in
`DHCPServer._clean_expired_leases`). -/
def expiredMacs (st : ServerState Mac) (now : Int) : List Mac :=
  keys (st.leased_ips.filter (fun p => p.2.is_expired now))

/-- One pass of the loop body of `DHCPServer._clean_expired_leases`: for each
MAC in `expired_list`, append its IP to `available_ips` and delete its dict
entry (each such MAC is present in the dict, so this is `release_ip`). -/
def clean_expired (st : ServerState Mac) (now : Int) : ServerState Mac :=
  (expiredMacs st now).foldl release_ip st

/-- Python `~m & 255` for a nonnegative int `m`. -/
def invOctet (m : Nat) : Nat := 255 - m % 256

/-- `network_parts`: octet-wise `subnet & mask`. -/
def networkAddress (subnet mask : IPv4) : IPv4 :=
  ⟨subnet.o1 &&& mask.o1, subnet.o2 &&& mask.o2, subnet.o3 &&& mask.o3,
   subnet.o4 &&& mask.o4⟩

/-- `broadcast_parts`: octet-wise `subnet | (~mask & 255)`. -/
def broadcastAddress (subnet mask : IPv4) : IPv4 :=
  ⟨subnet.o1 ||| invOctet mask.o1, subnet.o2 ||| invOctet mask.o2,
   subnet.o3 ||| invOctet mask.o3, subnet.o4 ||| invOctet mask.o4⟩

/-- `ip_parts = network_parts[:]; ip_parts[3] = i`. -/
def candidateIP (subnet mask : IPv4) (i : Nat) : IPv4 :=
  ⟨(networkAddress subnet mask).o1, (networkAddress subnet mask).o2,
   (networkAddress subnet mask).o3, i⟩

/-- `DHCPServer._generate_available_ips`: enumerate last octets `1..254` over
the network prefix, skipping exact matches of the network and broadcast
addresses. -/
def generate_available_ips (subnet mask : IPv4) : List IPv4 :=
  (List.range' 1 254).filterMap (fun i =>
    if candidateIP subnet mask i = networkAddress subnet mask ∨
        candidateIP subnet mask i = broadcastAddress subnet mask then none
    else some (candidateIP subnet mask i))

/-- The freshly constructed server: empty dict, generated pool. -/
def initState (Mac : Type) (subnet mask : IPv4) : ServerState Mac :=
  { leased_ips := [], available_ips := generate_available_ips subnet mask }

/-- One client-visible mutation of the lease state. -/
inductive Op (Mac : Type) where
  | allocate (mac : Mac) (now : Int)
  | renew (mac : Mac) (now : Int)
  | release (mac : Mac)
  | reclaim (now : Int)

/-- Apply one operation (`lt` is the configured `lease_time`). -/
def applyOp (lt : Int) (st : ServerState Mac) : Op Mac → ServerState Mac
  | .allocate mac now => (allocate_ip st mac now lt).2
  | .renew mac now => (renew_lease st mac now).2
  | .release mac => release_ip st mac
  | .reclaim now => clean_expired st now

/-- Run a sequence of operations. -/
def run (lt : Int) (st : ServerState Mac) (ops : List (Op Mac)) : ServerState Mac :=
  ops.foldl (applyOp lt) st

/-- The conservation invariant: the pool together with the lease-held IPs is
a permutation of the full host range, and the table's keys are distinct. -/
def InvHolds (full : List IPv4) (st : ServerState Mac) : Prop :=
  List.Perm (st.available_ips ++ tableIPs st) full ∧ (keys st.leased_ips).Nodup

/-! ## Wire format (`_build_dhcp_offer` / `_build_dhcp_ack`)

Packets are byte lists. `struct.pack` fields are expanded to their big-endian
bytes; all packed values in the source are in range, so no overflow clamping
arises. -/

/-- `struct.pack('!I', n)` (big endian, the source only packs values `< 2^32`). -/
def pack_u32 (n : Nat) : List Nat :=
  [n / 2 ^ 24 % 256, n / 2 ^ 16 % 256, n / 2 ^ 8 % 256, n % 256]

/-- `struct.pack('!H', n)`. -/
def pack_u16 (n : Nat) : List Nat := [n / 2 ^ 8 % 256, n % 256]

/-- `socket.inet_aton` of a dotted-quad string: its four octets. -/
def inet_aton (ip : IPv4) : List Nat := [ip.o1, ip.o2, ip.o3, ip.o4]

/-- A `struct` `ns` field: truncate or zero-pad the bytes to length `n`. -/
def pack_bytes (n : Nat) (b : List Nat) : List Nat :=
  b.take n ++ List.replicate (n - b.length) 0

/-- Server configuration consumed by the packet builders. `domain_name` holds
the ASCII bytes of `self.domain_name`. -/
structure DHCPConfig where
  subnet_mask : IPv4
  gateway : IPv4
  dns_servers : List IPv4
  domain_name : List Nat
  ntp_servers : List IPv4
  lease_time : Nat

/-- The `dns_opt` / `ntp_payload` accumulation loops. -/
def ipConcat (l : List IPv4) : List Nat :=
  l.foldl (fun acc ip => acc ++ inet_aton ip) []

/-- The `dhcp_options` bytes of `_build_dhcp_offer` (message type 2) and
`_build_dhcp_ack` (message type 5): magic cookie, then the option bytes.
Note the source emits the message type as `struct.pack('!BB', 53, mt)` —
two bytes, with no length byte between code `53` and the value. -/
def dhcp_options (mt : Nat) (cfg : DHCPConfig) : List Nat :=
  pack_u32 0x63825363
  ++ [53, mt]
  ++ ([1, 4] ++ inet_aton cfg.subnet_mask)
  ++ ([3, 4] ++ inet_aton cfg.gateway)
  ++ ([6, (ipConcat cfg.dns_servers).length] ++ ipConcat cfg.dns_servers)
  ++ ([51, 4] ++ pack_u32 cfg.lease_time)
  ++ (if cfg.domain_name = [] then []
      else [15, cfg.domain_name.length] ++ cfg.domain_name)
  ++ (if cfg.ntp_servers = [] then []
      else [42, (ipConcat cfg.ntp_servers).length] ++ ipConcat cfg.ntp_servers)
  ++ [255, 0]

/-- `struct.pack('!BBBBLHHLL6s16s64s128s', 2, 1, 6, 0, 0, 0, 0, 0, 0, mac,
0*16, 0*64, 0*128)`: the 234-byte header both builders construct.
`mac_bytes` stands for `bytes.fromhex(client_mac.replace(':', ''))`. -/
def dhcp_header_bytes (mac_bytes : List Nat) : List Nat :=
  [2, 1, 6, 0] ++ pack_u32 0 ++ pack_u16 0 ++ pack_u16 0
  ++ pack_u32 0 ++ pack_u32 0
  ++ pack_bytes 6 mac_bytes
  ++ List.replicate 16 0 ++ List.replicate 64 0 ++ List.replicate 128 0

/-- `dhcp_packet = dhcp_header + dhcp_yiaddr + b'\x00' * 12 + dhcp_options`. -/
def build_dhcp_packet (mt : Nat) (mac_bytes : List Nat) (ip : IPv4)
    (cfg : DHCPConfig) : List Nat :=
  dhcp_header_bytes mac_bytes ++ inet_aton ip ++ List.replicate 12 0
    ++ dhcp_options mt cfg

/-- `DHCPServer._build_dhcp_offer`. -/
def build_dhcp_offer (mac_bytes : List Nat) (ip : IPv4) (cfg : DHCPConfig) :
    List Nat :=
  build_dhcp_packet 2 mac_bytes ip cfg

/-- `DHCPServer._build_dhcp_ack`. -/
def build_dhcp_ack (mac_bytes : List Nat) (ip : IPv4) (cfg : DHCPConfig) :
    List Nat :=
  build_dhcp_packet 5 mac_bytes ip cfg

/-- Modelled from the spec (§4.4 wire format, no corresponding decoder exists
in the source): decode a byte list as a sequence of options, "each
`{code: 1 byte, length: 1 byte, value: length bytes}`, terminated by an
option with code `255` and length `0`"; `none` when the bytes do not fit
that grammar. `fuel` bounds recursion by the input length. -/
def decodeOptionsAux (fuel : Nat) (bs : List Nat) :
    Option (List (Nat × List Nat)) :=
  match fuel, bs with
  | _, 255 :: 0 :: _ => some []
  | fuel + 1, c :: n :: rest =>
      if n ≤ rest.length then
        (decodeOptionsAux fuel (rest.drop n)).map
          (fun os => (c, rest.take n) :: os)
      else none
  | _, _ => none

/-- Decode an option region per the spec's TLV grammar. -/
def decodeOptions (bs : List Nat) : Option (List (Nat × List Nat)) :=
  decodeOptionsAux bs.length bs

/-- The configuration of the source's `__main__` block (domain
`"example.local"` in ASCII). -/
def mainConfig : DHCPConfig :=
  { subnet_mask := ⟨255, 255, 255, 0⟩
    gateway := ⟨192, 168, 1, 1⟩
    dns_servers := [⟨8, 8, 8, 8⟩, ⟨8, 8, 4, 4⟩]
    domain_name := [101, 120, 97, 109, 112, 108, 101, 46, 108, 111, 99, 97, 108]
    ntp_servers := [⟨192, 168, 1, 10⟩]
    lease_time := 3600 }

/-- The bytes of `"aa:bb:cc:dd:ee:ff"` after `bytes.fromhex`. -/
def macSample : List Nat := [0xaa, 0xbb, 0xcc, 0xdd, 0xee, 0xff]

end DHCP

namespace DHCP

/-- C9: on `192.168.1.0/255.255.255.0` the generated pool is exactly
`192.168.1.1 … 192.168.1.254` in ascending order, and the first `allocate`
on a fresh server returns `192.168.1.1`. -/
theorem C9_generate_and_first_allocate :
    generate_available_ips ⟨192, 168, 1, 0⟩ ⟨255, 255, 255, 0⟩ =
      (List.range' 1 254).map (fun i => (⟨192, 168, 1, i⟩ : IPv4)) ∧
    (generate_available_ips ⟨192, 168, 1, 0⟩ ⟨255, 255, 255, 0⟩).length = 254 ∧
    (allocate_ip (initState String ⟨192, 168, 1, 0⟩ ⟨255, 255, 255, 0⟩)
        "aa:bb:cc:dd:ee:ff" 0 3600).1 = some ⟨192, 168, 1, 1⟩ := by
  refine ⟨by decide, by decide, by decide⟩

/-! ## Lookup / erase lemmas -/

variable {Mac : Type} [DecidableEq Mac]

theorem lookupLease_eq_none_iff {t : List (Mac × DHCPLease)} {mac : Mac} :
    lookupLease t mac = none ↔ mac ∉ keys t := by
  induction t with
  | nil => simp [lookupLease, keys]
  | cons p rest ih =>
      rcases p with ⟨m, l⟩
      by_cases h : m = mac
      · subst h; simp [lookupLease, keys]
      · simp [lookupLease, keys, h, Ne.symm h, ih]

theorem lookupLease_mem {t : List (Mac × DHCPLease)} {mac : Mac} {l : DHCPLease}
    (h : lookupLease t mac = some l) : (mac, l) ∈ t := by
  induction t with
  | nil => simp [lookupLease] at h
  | cons p rest ih =>
      rcases p with ⟨m, l'⟩
      by_cases hm : m = mac
      · subst hm
        simp [lookupLease] at h
        subst h
        exact List.mem_cons_self _ _
      · rw [lookupLease, if_neg hm] at h
        exact List.mem_cons_of_mem _ (ih h)

theorem eraseKey_sublist (t : List (Mac × DHCPLease)) (mac : Mac) :
    (eraseKey t mac).Sublist t := by
  induction t with
  | nil => simp [eraseKey]
  | cons p rest ih =>
      rcases p with ⟨m, l⟩
      by_cases h : m = mac
      · rw [eraseKey, if_pos h]; exact ih.cons _
      · rw [eraseKey, if_neg h]; exact ih.cons₂ _

theorem lookupLease_eraseKey_self (t : List (Mac × DHCPLease)) (mac : Mac) :
    lookupLease (eraseKey t mac) mac = none := by
  induction t with
  | nil => simp [eraseKey, lookupLease]
  | cons p rest ih =>
      rcases p with ⟨m, l⟩
      by_cases h : m = mac
      · rw [eraseKey, if_pos h]; exact ih
      · rw [eraseKey, if_neg h, lookupLease, if_neg h]; exact ih

theorem lookupLease_eraseKey_ne {t : List (Mac × DHCPLease)} {mac m : Mac}
    (h : m ≠ mac) : lookupLease (eraseKey t mac) m = lookupLease t m := by
  induction t with
  | nil => simp [eraseKey]
  | cons p rest ih =>
      rcases p with ⟨m', l⟩
      by_cases h1 : m' = mac
      · subst h1
        rw [eraseKey, if_pos rfl, lookupLease, if_neg (Ne.symm h)]
        exact ih
      · by_cases h2 : m' = m
        · rw [eraseKey, if_neg h1, lookupLease, if_pos h2, lookupLease, if_pos h2]
        · rw [eraseKey, if_neg h1, lookupLease, if_neg h2, lookupLease, if_neg h2]
          exact ih

theorem eraseKey_eq_self {t : List (Mac × DHCPLease)} {mac : Mac}
    (h : mac ∉ keys t) : eraseKey t mac = t := by
  induction t with
  | nil => rfl
  | cons p rest ih =>
      rcases p with ⟨m, l⟩
      simp only [keys, List.map_cons, List.mem_cons] at h
      push_neg at h
      rw [eraseKey, if_neg (fun hh => h.1 hh.symm), ih (by simpa [keys] using h.2)]

theorem lookupLease_append_of_none {t : List (Mac × DHCPLease)} {mac : Mac}
    {l : DHCPLease} (h : lookupLease t mac = none) :
    lookupLease (t ++ [(mac, l)]) mac = some l := by
  induction t with
  | nil => simp [lookupLease]
  | cons p rest ih =>
      rcases p with ⟨m, l'⟩
      by_cases hm : m = mac
      · rw [lookupLease, if_pos hm] at h; exact absurd h (by simp)
      · rw [lookupLease, if_neg hm] at h
        rw [List.cons_append, lookupLease, if_neg hm]
        exact ih h

/-! ## Branch equations for the operations -/

theorem release_ip_of_some {st : ServerState Mac} {mac : Mac} {l : DHCPLease}
    (hl : lookupLease st.leased_ips mac = some l) :
    release_ip st mac =
      { leased_ips := eraseKey st.leased_ips mac
        available_ips := st.available_ips ++ [l.ip] } := by
  unfold release_ip; rw [hl]

theorem release_ip_of_none {st : ServerState Mac} {mac : Mac}
    (hl : lookupLease st.leased_ips mac = none) :
    release_ip st mac = st := by
  unfold release_ip; rw [hl]

theorem allocate_fresh_nil {st : ServerState Mac} {mac : Mac} {now lt : Int}
    (hp : st.available_ips = []) :
    allocate_fresh st mac now lt = (none, st) := by
  unfold allocate_fresh; rw [hp]

theorem allocate_fresh_cons {st : ServerState Mac} {mac : Mac} {now lt : Int}
    {ip : IPv4} {rest : List IPv4} (hp : st.available_ips = ip :: rest) :
    allocate_fresh st mac now lt =
      (some ip,
       { leased_ips := st.leased_ips ++ [(mac, ⟨ip, now, lt⟩)]
         available_ips := rest }) := by
  unfold allocate_fresh; rw [hp]

theorem allocate_ip_of_none {st : ServerState Mac} {mac : Mac} {now lt : Int}
    (hl : lookupLease st.leased_ips mac = none) :
    allocate_ip st mac now lt = allocate_fresh st mac now lt := by
  unfold allocate_ip; rw [hl]

theorem allocate_ip_of_live {st : ServerState Mac} {mac : Mac} {now lt : Int}
    {l : DHCPLease} (hl : lookupLease st.leased_ips mac = some l)
    (he : l.is_expired now = false) :
    allocate_ip st mac now lt = (some l.ip, st) := by
  unfold allocate_ip; rw [hl]
  exact if_neg (by simp [he])

theorem allocate_ip_of_expired {st : ServerState Mac} {mac : Mac} {now lt : Int}
    {l : DHCPLease} (hl : lookupLease st.leased_ips mac = some l)
    (he : l.is_expired now = true) :
    allocate_ip st mac now lt =
      allocate_fresh (release_ip st mac) mac now lt := by
  unfold allocate_ip; rw [hl]
  exact if_pos he

theorem renew_lease_of_live {st : ServerState Mac} {mac : Mac} {now : Int}
    {l : DHCPLease} (hl : lookupLease st.leased_ips mac = some l)
    (he : l.is_expired now = false) :
    renew_lease st mac now =
      (some l.ip,
       { leased_ips := renewEntry st.leased_ips mac now
         available_ips := st.available_ips }) := by
  unfold renew_lease; rw [hl]
  exact if_neg (by simp [he])

theorem renew_lease_of_expired {st : ServerState Mac} {mac : Mac} {now : Int}
    {l : DHCPLease} (hl : lookupLease st.leased_ips mac = some l)
    (he : l.is_expired now = true) :
    renew_lease st mac now = (none, st) := by
  unfold renew_lease; rw [hl]
  exact if_pos he

theorem renew_lease_of_none {st : ServerState Mac} {mac : Mac} {now : Int}
    (hl : lookupLease st.leased_ips mac = none) :
    renew_lease st mac now = (none, st) := by
  unfold renew_lease; rw [hl]

/-! ## C6: release -/

/-- C6: if a lease exists for `mac`, `release` removes it from the table and
appends its IP to the back of the pool; releasing an absent MAC is a no-op. -/
theorem C6_release (st : ServerState Mac) (mac : Mac) :
    (∀ l, lookupLease st.leased_ips mac = some l →
      release_ip st mac =
        { leased_ips := eraseKey st.leased_ips mac
          available_ips := st.available_ips ++ [l.ip] } ∧
      lookupLease (release_ip st mac).leased_ips mac = none) ∧
    (lookupLease st.leased_ips mac = none → release_ip st mac = st) := by
  constructor
  · intro l h
    refine ⟨release_ip_of_some h, ?_⟩
    rw [release_ip_of_some h]
    exact lookupLease_eraseKey_self ..
  · exact release_ip_of_none

theorem C6_release_witness :
    (release_ip (⟨[(0, ⟨⟨10, 0, 0, 9⟩, 0, 100⟩)], []⟩ : ServerState Nat) 0 =
      { leased_ips := eraseKey [(0, ⟨⟨10, 0, 0, 9⟩, 0, 100⟩)] 0
        available_ips := [] ++ [⟨10, 0, 0, 9⟩] } ∧
     lookupLease (release_ip
        (⟨[(0, ⟨⟨10, 0, 0, 9⟩, 0, 100⟩)], []⟩ : ServerState Nat) 0).leased_ips
        0 = none) ∧
    release_ip (⟨[(0, ⟨⟨10, 0, 0, 9⟩, 0, 100⟩)], []⟩ : ServerState Nat) 1 =
      ⟨[(0, ⟨⟨10, 0, 0, 9⟩, 0, 100⟩)], []⟩ :=
  ⟨(C6_release (⟨[(0, ⟨⟨10, 0, 0, 9⟩, 0, 100⟩)], []⟩ : ServerState Nat) 0).1
      ⟨⟨10, 0, 0, 9⟩, 0, 100⟩ rfl,
   (C6_release (⟨[(0, ⟨⟨10, 0, 0, 9⟩, 0, 100⟩)], []⟩ : ServerState Nat) 1).2
      rfl⟩

/-! ## C2: allocate idempotence -/

theorem allocate_fresh_lookup {st : ServerState Mac} {mac : Mac} {now lt : Int}
    {ip : IPv4} {st' : ServerState Mac}
    (h0 : lookupLease st.leased_ips mac = none)
    (h : allocate_fresh st mac now lt = (some ip, st')) :
    lookupLease st'.leased_ips mac = some ⟨ip, now, lt⟩ := by
  cases hp : st.available_ips with
  | nil =>
      rw [allocate_fresh_nil hp] at h
      simp at h
  | cons ip0 rest =>
      rw [allocate_fresh_cons hp] at h
      injection h with h1 h2
      obtain rfl : ip0 = ip := Option.some.inj h1
      rw [← h2]
      exact lookupLease_append_of_none h0

theorem allocate_ip_lookup {st : ServerState Mac} {mac : Mac} {now lt : Int}
    {ip : IPv4} {st' : ServerState Mac}
    (h : allocate_ip st mac now lt = (some ip, st')) :
    ∃ l, lookupLease st'.leased_ips mac = some l ∧ l.ip = ip := by
  cases hl : lookupLease st.leased_ips mac with
  | some l =>
      cases he : l.is_expired now with
      | true =>
          rw [allocate_ip_of_expired hl he] at h
          refine ⟨⟨ip, now, lt⟩, allocate_fresh_lookup ?_ h, rfl⟩
          rw [release_ip_of_some hl]
          exact lookupLease_eraseKey_self ..
      | false =>
          rw [allocate_ip_of_live hl he] at h
          injection h with h1 h2
          exact ⟨l, h2 ▸ hl, Option.some.inj h1⟩
  | none =>
      rw [allocate_ip_of_none hl] at h
      exact ⟨⟨ip, now, lt⟩, allocate_fresh_lookup hl h, rfl⟩

/-- C2: a successful `allocate(mac)` followed by another `allocate(mac)` with
no expiry of that lease in between returns the same IP and leaves pool and
table unchanged. -/
theorem C2_allocate_idempotent (st : ServerState Mac) (mac : Mac)
    (t1 t2 lt : Int) (ip : IPv4) (st' : ServerState Mac)
    (h1 : allocate_ip st mac t1 lt = (some ip, st'))
    (h2 : ∀ l, lookupLease st'.leased_ips mac = some l →
      l.is_expired t2 = false) :
    allocate_ip st' mac t2 lt = (some ip, st') := by
  obtain ⟨l, hl, hip⟩ := allocate_ip_lookup h1
  rw [allocate_ip_of_live hl (h2 l hl), hip]

theorem C2_allocate_idempotent_witness :
    allocate_ip (⟨[(5, ⟨⟨10, 0, 0, 1⟩, 0, 3600⟩)], []⟩ : ServerState Nat)
      5 7 3600 = (some ⟨10, 0, 0, 1⟩,
        (⟨[(5, ⟨⟨10, 0, 0, 1⟩, 0, 3600⟩)], []⟩ : ServerState Nat)) :=
  C2_allocate_idempotent (⟨[], [⟨10, 0, 0, 1⟩]⟩ : ServerState Nat) 5 0 7 3600
    ⟨10, 0, 0, 1⟩ _ (by decide)
    (by
      intro l hl
      simp [lookupLease] at hl
      subst hl
      decide)

/-! ## C3: PoolExhausted has no side effect -/

/-- C3: whenever `allocate` returns no IP, the state is exactly as before;
and on `192.168.1.0/24`, after 254 allocations to distinct MACs the pool is
empty, the table has 254 leases, and a 255th `allocate` for a fresh MAC
returns no IP and changes nothing. -/
theorem C3_pool_exhausted (st : ServerState Mac) (mac : Mac) (now lt : Int)
    (st' : ServerState Mac) :
    (allocate_ip st mac now lt = (none, st') → st' = st) ∧
    ((run (3600 : Int) (initState Nat ⟨192, 168, 1, 0⟩ ⟨255, 255, 255, 0⟩)
        ((List.range 254).map (fun i => Op.allocate i 0))).available_ips =
          [] ∧
     (run (3600 : Int) (initState Nat ⟨192, 168, 1, 0⟩ ⟨255, 255, 255, 0⟩)
        ((List.range 254).map (fun i => Op.allocate i 0))).leased_ips.length =
          254 ∧
     allocate_ip
        (run (3600 : Int) (initState Nat ⟨192, 168, 1, 0⟩ ⟨255, 255, 255, 0⟩)
          ((List.range 254).map (fun i => Op.allocate i 0))) 999 7 3600 =
        (none,
         run (3600 : Int) (initState Nat ⟨192, 168, 1, 0⟩ ⟨255, 255, 255, 0⟩)
          ((List.range 254).map (fun i => Op.allocate i 0)))) := by
  constructor
  · intro h
    cases hl : lookupLease st.leased_ips mac with
    | some l =>
        cases he : l.is_expired now with
        | true =>
            rw [allocate_ip_of_expired hl he, release_ip_of_some hl] at h
            cases hp : st.available_ips with
            | nil =>
                rw [allocate_fresh_cons (by rw [hp]; rfl)] at h
                exact absurd (Prod.ext_iff.mp h).1 (by simp)
            | cons p r =>
                rw [allocate_fresh_cons (by rw [hp]; rfl)] at h
                exact absurd (Prod.ext_iff.mp h).1 (by simp)
        | false =>
            rw [allocate_ip_of_live hl he] at h
            exact absurd (Prod.ext_iff.mp h).1 (by simp)
    | none =>
        rw [allocate_ip_of_none hl] at h
        cases hp : st.available_ips with
        | nil =>
            rw [allocate_fresh_nil hp] at h
            exact ((Prod.ext_iff.mp h).2).symm
        | cons p r =>
            rw [allocate_fresh_cons hp] at h
            exact absurd (Prod.ext_iff.mp h).1 (by simp)
  · exact ⟨by decide, by decide, by decide⟩

theorem C3_pool_exhausted_witness :
    (⟨[(3, ⟨⟨10, 0, 0, 9⟩, 0, 100⟩)], []⟩ : ServerState Nat) =
      ⟨[(3, ⟨⟨10, 0, 0, 9⟩, 0, 100⟩)], []⟩ :=
  (C3_pool_exhausted (⟨[(3, ⟨⟨10, 0, 0, 9⟩, 0, 100⟩)], []⟩ : ServerState Nat)
      7 0 3600 ⟨[(3, ⟨⟨10, 0, 0, 9⟩, 0, 100⟩)], []⟩).1 (by decide)

/-! ## C10: allocation after expiry hands out the oldest pool entry -/

/-- C10: when `allocate(mac)` finds an expired lease, the old IP is appended
to the pool before the front is taken, so the client gets its old IP back
exactly when the pool was empty; with a non-empty pool it gets the oldest
pool entry, a different address, while its old IP stays in the pool. -/
theorem C10_expired_reallocation (st : ServerState Mac) (mac : Mac)
    (now lt : Int) (l : DHCPLease)
    (hl : lookupLease st.leased_ips mac = some l)
    (he : l.is_expired now = true)
    (hfree : l.ip ∉ st.available_ips) :
    ((allocate_ip st mac now lt).1 = some l.ip ↔ st.available_ips = []) ∧
    (∀ p rest, st.available_ips = p :: rest →
      (allocate_ip st mac now lt).1 = some p ∧ p ≠ l.ip ∧
      l.ip ∈ (allocate_ip st mac now lt).2.available_ips) := by
  rw [allocate_ip_of_expired hl he, release_ip_of_some hl]
  cases hp : st.available_ips with
  | nil =>
      constructor
      · simp [allocate_fresh]
      · intro p rest hpr
        exact absurd hpr (by simp)
  | cons p0 rest0 =>
      have hne : p0 ≠ l.ip := by
        intro hh
        exact hfree (hh ▸ (hp ▸ List.mem_cons_self p0 rest0))
      constructor
      · simp [allocate_fresh, hne]
      · intro p rest hpr
        injection hpr with hp1 hp2
        subst hp1
        subst hp2
        refine ⟨by simp [allocate_fresh], hne, ?_⟩
        simp [allocate_fresh]

theorem C10_expired_reallocation_witness :
    ((allocate_ip (⟨[(0, ⟨⟨10, 0, 0, 9⟩, 0, 10⟩)], [⟨10, 0, 0, 1⟩]⟩ :
        ServerState Nat) 0 100 50).1 = some ⟨10, 0, 0, 9⟩ ↔
      ([⟨10, 0, 0, 1⟩] : List IPv4) = []) ∧
    (∀ p rest, ([⟨10, 0, 0, 1⟩] : List IPv4) = p :: rest →
      (allocate_ip (⟨[(0, ⟨⟨10, 0, 0, 9⟩, 0, 10⟩)], [⟨10, 0, 0, 1⟩]⟩ :
        ServerState Nat) 0 100 50).1 = some p ∧ p ≠ ⟨10, 0, 0, 9⟩ ∧
      (⟨10, 0, 0, 9⟩ : IPv4) ∈ (allocate_ip
        (⟨[(0, ⟨⟨10, 0, 0, 9⟩, 0, 10⟩)], [⟨10, 0, 0, 1⟩]⟩ :
          ServerState Nat) 0 100 50).2.available_ips) :=
  C10_expired_reallocation
    (⟨[(0, ⟨⟨10, 0, 0, 9⟩, 0, 10⟩)], [⟨10, 0, 0, 1⟩]⟩ : ServerState Nat)
    0 100 50 ⟨⟨10, 0, 0, 9⟩, 0, 10⟩ rfl (by decide) (by decide)

/-! ## C4: renew -/

theorem lookupLease_renewEntry {t : List (Mac × DHCPLease)} {mac : Mac}
    {l : DHCPLease} (now : Int) (h : lookupLease t mac = some l) :
    lookupLease (renewEntry t mac now) mac = some ⟨l.ip, now, l.lease_time⟩ := by
  induction t with
  | nil => simp [lookupLease] at h
  | cons p rest ih =>
      rcases p with ⟨m, l'⟩
      by_cases hm : m = mac
      · subst hm
        rw [lookupLease, if_pos rfl] at h
        obtain rfl := Option.some.inj h
        rw [renewEntry, if_pos rfl, lookupLease, if_pos rfl]
      · rw [lookupLease, if_neg hm] at h
        rw [renewEntry, if_neg hm, lookupLease, if_neg hm]
        exact ih h

/-- C4: `renew(mac)` succeeds exactly when a non-expired lease exists for
`mac`; on success it returns the lease's own IP, resets `lease_start` to
`now` (so the lease is expired at `t` exactly when `t > now + duration`),
and leaves the pool untouched; on failure it returns nothing and leaves
the whole state unchanged. -/
theorem C4_renew (st : ServerState Mac) (mac : Mac) (now : Int) :
    ((∃ ip st', renew_lease st mac now = (some ip, st')) ↔
      ∃ l, lookupLease st.leased_ips mac = some l ∧
        l.is_expired now = false) ∧
    (∀ l, lookupLease st.leased_ips mac = some l → l.is_expired now = false →
      renew_lease st mac now =
        (some l.ip,
         { leased_ips := renewEntry st.leased_ips mac now
           available_ips := st.available_ips }) ∧
      lookupLease (renewEntry st.leased_ips mac now) mac =
        some ⟨l.ip, now, l.lease_time⟩ ∧
      ∀ t : Int, (⟨l.ip, now, l.lease_time⟩ : DHCPLease).is_expired t = true ↔
        now + l.lease_time < t) ∧
    ((renew_lease st mac now).1 = none → (renew_lease st mac now).2 = st) := by
  refine ⟨?_, ?_, ?_⟩
  · cases hl : lookupLease st.leased_ips mac with
    | none => simp [renew_lease_of_none hl, hl]
    | some l =>
        cases he : l.is_expired now with
        | true => simp [renew_lease_of_expired hl he, hl, he]
        | false =>
            constructor
            · intro _; exact ⟨l, rfl, he⟩
            · intro _; exact ⟨l.ip, _, renew_lease_of_live hl he⟩
  · intro l hl he
    refine ⟨renew_lease_of_live hl he, lookupLease_renewEntry now hl, ?_⟩
    intro t
    simp only [DHCPLease.is_expired, decide_eq_true_eq]
    omega
  · intro h1
    cases hl : lookupLease st.leased_ips mac with
    | none => rw [renew_lease_of_none hl]
    | some l =>
        cases he : l.is_expired now with
        | true => rw [renew_lease_of_expired hl he]
        | false =>
            rw [renew_lease_of_live hl he] at h1
            exact absurd h1 (by simp)

theorem C4_renew_witness :
    (renew_lease (⟨[(0, ⟨⟨10, 0, 0, 1⟩, 0, 100⟩)], [⟨10, 0, 0, 2⟩]⟩ :
        ServerState Nat) 0 50 =
      (some ⟨10, 0, 0, 1⟩,
       { leased_ips := renewEntry [(0, ⟨⟨10, 0, 0, 1⟩, 0, 100⟩)] 0 50
         available_ips := [⟨10, 0, 0, 2⟩] }) ∧
     lookupLease (renewEntry [(0, ⟨⟨10, 0, 0, 1⟩, 0, 100⟩)] 0 50) 0 =
       some ⟨⟨10, 0, 0, 1⟩, 50, 100⟩ ∧
     ((⟨⟨10, 0, 0, 1⟩, 50, 100⟩ : DHCPLease).is_expired 200 = true ↔
       (50 : Int) + 100 < 200)) ∧
    (renew_lease (⟨[(0, ⟨⟨10, 0, 0, 1⟩, 0, 100⟩)], [⟨10, 0, 0, 2⟩]⟩ :
        ServerState Nat) 1 50).2 =
      ⟨[(0, ⟨⟨10, 0, 0, 1⟩, 0, 100⟩)], [⟨10, 0, 0, 2⟩]⟩ :=
  ⟨(fun h => ⟨h.1, h.2.1, h.2.2 200⟩)
    ((C4_renew (⟨[(0, ⟨⟨10, 0, 0, 1⟩, 0, 100⟩)], [⟨10, 0, 0, 2⟩]⟩ :
        ServerState Nat) 0 50).2.1 ⟨⟨10, 0, 0, 1⟩, 0, 100⟩ rfl (by decide)),
   (C4_renew (⟨[(0, ⟨⟨10, 0, 0, 1⟩, 0, 100⟩)], [⟨10, 0, 0, 2⟩]⟩ :
        ServerState Nat) 1 50).2.2 (by decide)⟩

/-! ## C7 and C8: wire-format divergences -/

/-- C7 (code bug): in the packets built by `_build_dhcp_offer` and
`_build_dhcp_ack`, the assigned IP is not written into the header's
"your IP" slot — bytes 16..19, the position after the client-IP field in
the header layout, hold zeros — but appended at offset 234, after the
whole 234-byte packed header; and the hardware address occupies bytes
20..25 while bytes 28..43, where the padded hardware-address field of the
standard layout sits (the offset the server's own receive loop reads the
MAC from), hold zeros. -/
theorem C7_yiaddr_divergence :
    (((build_dhcp_offer macSample ⟨192, 168, 1, 5⟩ mainConfig).drop 16).take 4
        = [0, 0, 0, 0] ∧
     ((build_dhcp_ack macSample ⟨192, 168, 1, 5⟩ mainConfig).drop 16).take 4
        = [0, 0, 0, 0] ∧
     inet_aton ⟨192, 168, 1, 5⟩ ≠ [0, 0, 0, 0]) ∧
    (((build_dhcp_offer macSample ⟨192, 168, 1, 5⟩ mainConfig).drop 234).take 4
        = inet_aton ⟨192, 168, 1, 5⟩ ∧
     ((build_dhcp_ack macSample ⟨192, 168, 1, 5⟩ mainConfig).drop 234).take 4
        = inet_aton ⟨192, 168, 1, 5⟩) ∧
    (((build_dhcp_offer macSample ⟨192, 168, 1, 5⟩ mainConfig).drop 20).take 6
        = macSample ∧
     ((build_dhcp_offer macSample ⟨192, 168, 1, 5⟩ mainConfig).drop 28).take 16
        = List.replicate 16 0 ∧
     pack_bytes 16 macSample ≠ List.replicate 16 0) := by
  decide

/-- C8 (code bug): the option region of an ACK for `192.168.1.5` with lease
duration `3600` starts with the two bytes `53, 5` — code `53` immediately
followed by the value, with no length byte — so reading it as a sequence of
`{code, length, value}` options terminated by code `255` length `0` fails
outright (the spec-mandated decode returns no option list, in particular no
message-type option with one-byte value `5`). -/
theorem C8_option_block_divergence :
    (build_dhcp_ack macSample ⟨192, 168, 1, 5⟩ mainConfig).drop 254 =
      (dhcp_options 5 mainConfig).drop 4 ∧
    ((dhcp_options 5 mainConfig).drop 4).take 2 = [53, 5] ∧
    decodeOptions ((dhcp_options 5 mainConfig).drop 4) = none := by
  decide

/-! ## C1: conservation invariant -/

theorem keys_cons (p : Mac × DHCPLease) (t : List (Mac × DHCPLease)) :
    keys (p :: t) = p.1 :: keys t := rfl

theorem eraseKey_perm {t : List (Mac × DHCPLease)} {mac : Mac} {l : DHCPLease}
    (hnd : (keys t).Nodup) (h : lookupLease t mac = some l) :
    List.Perm t ((mac, l) :: eraseKey t mac) := by
  induction t with
  | nil => simp [lookupLease] at h
  | cons p rest ih =>
      rcases p with ⟨m, l'⟩
      rw [keys_cons] at hnd
      obtain ⟨h1, h2⟩ := List.nodup_cons.mp hnd
      by_cases hm : m = mac
      · subst hm
        rw [lookupLease, if_pos rfl] at h
        obtain rfl := Option.some.inj h
        rw [eraseKey, if_pos rfl, eraseKey_eq_self h1]
      · rw [lookupLease, if_neg hm] at h
        rw [eraseKey, if_neg hm]
        exact ((ih h2 h).cons (m, l')).trans (List.Perm.swap (mac, l) (m, l') _)

theorem leaseIPs_append (t s : List (Mac × DHCPLease)) :
    leaseIPs (t ++ s) = leaseIPs t ++ leaseIPs s := by
  simp [leaseIPs]

theorem keys_append (t s : List (Mac × DHCPLease)) :
    keys (t ++ s) = keys t ++ keys s := by
  simp [keys]

theorem invHolds_release {full : List IPv4} {st : ServerState Mac} (mac : Mac)
    (h : InvHolds full st) : InvHolds full (release_ip st mac) := by
  obtain ⟨hperm, hnd⟩ := h
  cases hl : lookupLease st.leased_ips mac with
  | none => rw [release_ip_of_none hl]; exact ⟨hperm, hnd⟩
  | some l =>
      rw [release_ip_of_some hl]
      have hips : List.Perm (tableIPs st)
          (l.ip :: leaseIPs (eraseKey st.leased_ips mac)) := by
        simpa [tableIPs, leaseIPs] using
          (eraseKey_perm hnd hl).map (fun p => p.2.ip)
      constructor
      · show List.Perm ((st.available_ips ++ [l.ip]) ++
          leaseIPs (eraseKey st.leased_ips mac)) full
        rw [List.append_assoc]
        exact (List.Perm.append_left st.available_ips hips.symm).trans hperm
      · exact hnd.sublist ((eraseKey_sublist st.leased_ips mac).map Prod.fst)

theorem invHolds_allocate_fresh {full : List IPv4} {st : ServerState Mac}
    {mac : Mac} (now lt : Int) (h : InvHolds full st)
    (hmac : lookupLease st.leased_ips mac = none) :
    InvHolds full ((allocate_fresh st mac now lt).2) := by
  obtain ⟨hperm, hnd⟩ := h
  cases hp : st.available_ips with
  | nil => rw [allocate_fresh_nil hp]; exact ⟨hperm, hnd⟩
  | cons ip rest =>
      rw [allocate_fresh_cons hp]
      rw [hp] at hperm
      constructor
      · show List.Perm (rest ++
          leaseIPs (st.leased_ips ++ [(mac, ⟨ip, now, lt⟩)])) full
        rw [leaseIPs_append]
        have h1 : rest ++ (leaseIPs st.leased_ips ++
              leaseIPs [(mac, ⟨ip, now, lt⟩)]) =
            (rest ++ tableIPs st) ++ [ip] := by
          rw [List.append_assoc]
          rfl
        rw [h1]
        exact (List.perm_append_singleton ip _).trans hperm
      · show (keys (st.leased_ips ++ [(mac, ⟨ip, now, lt⟩)])).Nodup
        rw [keys_append]
        refine (List.perm_append_singleton mac _).nodup_iff.mpr ?_
        exact List.nodup_cons.mpr ⟨lookupLease_eq_none_iff.mp hmac, hnd⟩

theorem invHolds_allocate {full : List IPv4} {st : ServerState Mac}
    (mac : Mac) (now lt : Int) (h : InvHolds full st) :
    InvHolds full ((allocate_ip st mac now lt).2) := by
  cases hl : lookupLease st.leased_ips mac with
  | none =>
      rw [allocate_ip_of_none hl]
      exact invHolds_allocate_fresh now lt h hl
  | some l =>
      cases he : l.is_expired now with
      | false => rw [allocate_ip_of_live hl he]; exact h
      | true =>
          rw [allocate_ip_of_expired hl he]
          refine invHolds_allocate_fresh now lt (invHolds_release mac h) ?_
          rw [release_ip_of_some hl]
          exact lookupLease_eraseKey_self ..

theorem leaseIPs_renewEntry (t : List (Mac × DHCPLease)) (mac : Mac)
    (now : Int) : leaseIPs (renewEntry t mac now) = leaseIPs t := by
  induction t with
  | nil => rfl
  | cons p rest ih =>
      rcases p with ⟨m, l⟩
      by_cases h : m = mac
      · rw [renewEntry, if_pos h]
        show l.ip :: leaseIPs (renewEntry rest mac now) = l.ip :: leaseIPs rest
        rw [ih]
      · rw [renewEntry, if_neg h]
        show l.ip :: leaseIPs (renewEntry rest mac now) = l.ip :: leaseIPs rest
        rw [ih]

theorem keys_renewEntry (t : List (Mac × DHCPLease)) (mac : Mac) (now : Int) :
    keys (renewEntry t mac now) = keys t := by
  induction t with
  | nil => rfl
  | cons p rest ih =>
      rcases p with ⟨m, l⟩
      by_cases h : m = mac
      · rw [renewEntry, if_pos h]
        show m :: keys (renewEntry rest mac now) = m :: keys rest
        rw [ih]
      · rw [renewEntry, if_neg h]
        show m :: keys (renewEntry rest mac now) = m :: keys rest
        rw [ih]

theorem invHolds_renew {full : List IPv4} {st : ServerState Mac}
    (mac : Mac) (now : Int) (h : InvHolds full st) :
    InvHolds full ((renew_lease st mac now).2) := by
  cases hl : lookupLease st.leased_ips mac with
  | none => rw [renew_lease_of_none hl]; exact h
  | some l =>
      cases he : l.is_expired now with
      | true => rw [renew_lease_of_expired hl he]; exact h
      | false =>
          rw [renew_lease_of_live hl he]
          obtain ⟨hperm, hnd⟩ := h
          constructor
          · show List.Perm (st.available_ips ++
              leaseIPs (renewEntry st.leased_ips mac now)) full
            rw [leaseIPs_renewEntry]
            exact hperm
          · show (keys (renewEntry st.leased_ips mac now)).Nodup
            rw [keys_renewEntry]
            exact hnd

theorem invHolds_foldl_release {full : List IPv4} :
    ∀ (ms : List Mac) (st : ServerState Mac),
      InvHolds full st → InvHolds full (ms.foldl release_ip st)
  | [], _, h => h
  | m :: ms, _, h => invHolds_foldl_release ms _ (invHolds_release m h)

theorem invHolds_reclaim {full : List IPv4} {st : ServerState Mac} (now : Int)
    (h : InvHolds full st) : InvHolds full (clean_expired st now) :=
  invHolds_foldl_release _ _ h

theorem invHolds_applyOp {full : List IPv4} (lt : Int) {st : ServerState Mac}
    (op : Op Mac) (h : InvHolds full st) : InvHolds full (applyOp lt st op) := by
  cases op with
  | allocate mac now => exact invHolds_allocate mac now lt h
  | renew mac now => exact invHolds_renew mac now h
  | release mac => exact invHolds_release mac h
  | reclaim now => exact invHolds_reclaim now h

theorem invHolds_run {full : List IPv4} (lt : Int) :
    ∀ (ops : List (Op Mac)) (st : ServerState Mac),
      InvHolds full st → InvHolds full (run lt st ops)
  | [], _, h => h
  | op :: ops, _, h => invHolds_run lt ops _ (invHolds_applyOp lt op h)

theorem generate_nodup (subnet mask : IPv4) :
    (generate_available_ips subnet mask).Nodup := by
  unfold generate_available_ips
  have key : ∀ (a : Nat) (b : IPv4),
      b ∈ (if candidateIP subnet mask a = networkAddress subnet mask ∨
            candidateIP subnet mask a = broadcastAddress subnet mask then none
           else some (candidateIP subnet mask a)) → b.o4 = a := by
    intro a b hb
    by_cases hc : candidateIP subnet mask a = networkAddress subnet mask ∨
        candidateIP subnet mask a = broadcastAddress subnet mask
    · rw [if_pos hc] at hb
      simp at hb
    · rw [if_neg hc] at hb
      simp only [Option.mem_def, Option.some.injEq] at hb
      rw [← hb]
      rfl
  exact List.Nodup.filterMap
    (fun a a' b hb hb' => (key a b hb).symm.trans (key a' b hb'))
    (List.nodup_range' 1 254)

/-- C1: starting from a fresh server, after any sequence of
allocate/renew/release/reclaim operations the pool and the lease-held IPs
are disjoint, together they are exactly the generated host range, each
hardware address has at most one lease, and each IP is held by at most one
lease. -/
theorem C1_state_invariant (subnet mask : IPv4) (lt : Int)
    (ops : List (Op Mac)) :
    (∀ ip, ip ∈ (run lt (initState Mac subnet mask) ops).available_ips →
      ip ∉ tableIPs (run lt (initState Mac subnet mask) ops)) ∧
    (∀ ip, (ip ∈ (run lt (initState Mac subnet mask) ops).available_ips ∨
        ip ∈ tableIPs (run lt (initState Mac subnet mask) ops)) ↔
      ip ∈ generate_available_ips subnet mask) ∧
    (keys (run lt (initState Mac subnet mask) ops).leased_ips).Nodup ∧
    (tableIPs (run lt (initState Mac subnet mask) ops)).Nodup := by
  have hinit : InvHolds (generate_available_ips subnet mask)
      (initState Mac subnet mask) := by
    constructor
    · show List.Perm (generate_available_ips subnet mask ++ leaseIPs []) _
      simp [leaseIPs]
    · exact List.nodup_nil
  obtain ⟨hperm, hnd⟩ := invHolds_run lt ops (initState Mac subnet mask) hinit
  have hnd2 : ((run lt (initState Mac subnet mask) ops).available_ips ++
      tableIPs (run lt (initState Mac subnet mask) ops)).Nodup :=
    hperm.nodup_iff.mpr (generate_nodup subnet mask)
  obtain ⟨hnd3, hnd4, hdisj⟩ := List.nodup_append.mp hnd2
  refine ⟨fun ip hip hip2 => hdisj hip hip2, fun ip => ?_, hnd, hnd4⟩
  constructor
  · intro hip
    exact hperm.mem_iff.mp (List.mem_append.mpr hip)
  · intro hip
    exact List.mem_append.mp (hperm.mem_iff.mpr hip)

theorem C1_state_invariant_witness :
    (⟨10, 0, 0, 2⟩ : IPv4) ∉ tableIPs
      (run (100 : Int) (initState Nat ⟨10, 0, 0, 0⟩ ⟨255, 255, 255, 252⟩)
        [Op.allocate 0 0]) :=
  (C1_state_invariant ⟨10, 0, 0, 0⟩ ⟨255, 255, 255, 252⟩ 100
    [Op.allocate 0 0]).1 ⟨10, 0, 0, 2⟩ (by decide)

/-! ## C5: reclamation sweep -/

theorem filterMap_congr_mem {α β : Type} {f g : α → Option β} :
    ∀ (l : List α), (∀ a ∈ l, f a = g a) → l.filterMap f = l.filterMap g
  | [], _ => rfl
  | a :: l, h => by
      rw [List.filterMap_cons, List.filterMap_cons,
        h a (List.mem_cons_self a l),
        filterMap_congr_mem l (fun x hx => h x (List.mem_cons_of_mem a hx))]

theorem filterMap_eq_map_of_mem {α β : Type} {f : α → Option β} {g : α → β} :
    ∀ (l : List α), (∀ a ∈ l, f a = some (g a)) → l.filterMap f = l.map g
  | [], _ => rfl
  | a :: l, h => by
      rw [List.filterMap_cons, h a (List.mem_cons_self a l),
        filterMap_eq_map_of_mem l (fun x hx => h x (List.mem_cons_of_mem a hx)),
        List.map_cons]

theorem eraseKey_filter_notMem (t : List (Mac × DHCPLease)) (m : Mac)
    (ms : List Mac) :
    (eraseKey t m).filter (fun p => decide (p.1 ∉ ms)) =
      t.filter (fun p => decide (p.1 ∉ m :: ms)) := by
  induction t with
  | nil => rfl
  | cons q rest ih =>
      rcases q with ⟨m', l⟩
      by_cases h : m' = m
      · subst h
        rw [eraseKey, if_pos rfl, ih, List.filter_cons]
        simp
      · rw [eraseKey, if_neg h, List.filter_cons, List.filter_cons, ih]
        simp [List.mem_cons, h]

theorem foldl_release_spec :
    ∀ (ms : List Mac) (s : ServerState Mac), ms.Nodup →
      (ms.foldl release_ip s).leased_ips =
        s.leased_ips.filter (fun p => decide (p.1 ∉ ms)) ∧
      (ms.foldl release_ip s).available_ips =
        s.available_ips ++ ms.filterMap
          (fun m => (lookupLease s.leased_ips m).map (fun l => l.ip))
  | [], s, _ => by simp
  | m :: ms, s, hnd => by
      obtain ⟨hm, hnd2⟩ := List.nodup_cons.mp hnd
      rw [List.foldl_cons]
      obtain ⟨ih1, ih2⟩ := foldl_release_spec ms (release_ip s m) hnd2
      cases hl : lookupLease s.leased_ips m with
      | none =>
          rw [release_ip_of_none hl] at ih1 ih2 ⊢
          have hkey : m ∉ keys s.leased_ips := lookupLease_eq_none_iff.mp hl
          constructor
          · rw [ih1]
            apply List.filter_congr
            intro p hp
            have hne : p.1 ≠ m := fun hh =>
              hkey (hh ▸ (List.mem_map_of_mem Prod.fst hp))
            simp [List.mem_cons, hne]
          · rw [ih2, List.filterMap_cons, hl]
            rfl
      | some l =>
          rw [release_ip_of_some hl] at ih1 ih2 ⊢
          constructor
          · rw [ih1]
            exact eraseKey_filter_notMem s.leased_ips m ms
          · rw [ih2]
            have hcong : ms.filterMap
                (fun m2 => (lookupLease (eraseKey s.leased_ips m) m2).map
                  (fun l2 => l2.ip)) =
              ms.filterMap
                (fun m2 => (lookupLease s.leased_ips m2).map
                  (fun l2 => l2.ip)) :=
              filterMap_congr_mem ms (fun m2 hm2 => by
                rw [lookupLease_eraseKey_ne
                  (fun hh => hm (by rw [← hh]; exact hm2))])
            show (s.available_ips ++ [l.ip]) ++ ms.filterMap
                (fun m2 => (lookupLease (eraseKey s.leased_ips m) m2).map
                  (fun l2 => l2.ip)) =
              s.available_ips ++ (m :: ms).filterMap
                (fun m2 => (lookupLease s.leased_ips m2).map
                  (fun l2 => l2.ip))
            rw [hcong, List.filterMap_cons, hl, List.append_assoc]
            rfl

theorem keys_nodup_inj {t : List (Mac × DHCPLease)} (hnd : (keys t).Nodup)
    {p q : Mac × DHCPLease} (hp : p ∈ t) (hq : q ∈ t) (h : p.1 = q.1) :
    p = q := by
  induction t with
  | nil => simp at hp
  | cons a rest ih =>
      rw [keys_cons] at hnd
      obtain ⟨h1, h2⟩ := List.nodup_cons.mp hnd
      rcases List.mem_cons.mp hp with rfl | hp2
      · rcases List.mem_cons.mp hq with rfl | hq2
        · rfl
        · exact absurd (by rw [h]; exact List.mem_map_of_mem Prod.fst hq2) h1
      · rcases List.mem_cons.mp hq with rfl | hq2
        · exact absurd (by rw [← h]; exact List.mem_map_of_mem Prod.fst hp2) h1
        · exact ih h2 hp2 hq2

theorem lookupLease_of_mem {t : List (Mac × DHCPLease)}
    (hnd : (keys t).Nodup) {m : Mac} {l : DHCPLease} (hm : (m, l) ∈ t) :
    lookupLease t m = some l := by
  induction t with
  | nil => simp at hm
  | cons a rest ih =>
      rw [keys_cons] at hnd
      obtain ⟨h1, h2⟩ := List.nodup_cons.mp hnd
      rcases List.mem_cons.mp hm with heq | hmem
      · rw [← heq, lookupLease, if_pos rfl]
      · have hne : a.1 ≠ m := fun hh =>
          h1 (hh ▸ List.mem_map_of_mem Prod.fst hmem)
        rcases a with ⟨m2, l2⟩
        rw [lookupLease, if_neg hne]
        exact ih h2 hmem

/-- C5: one reclamation pass at time `now` removes exactly the leases that
are expired at `now` from the table and appends their IPs (in table order)
to the pool; every non-expired lease entry is untouched. -/
theorem C5_reclaim (st : ServerState Mac) (now : Int)
    (hnd : (keys st.leased_ips).Nodup) :
    (clean_expired st now).leased_ips =
      st.leased_ips.filter (fun p => !p.2.is_expired now) ∧
    (clean_expired st now).available_ips =
      st.available_ips ++
        (st.leased_ips.filter (fun p => p.2.is_expired now)).map
          (fun p => p.2.ip) := by
  have hsub : (expiredMacs st now).Nodup :=
    hnd.sublist ((List.filter_sublist st.leased_ips).map Prod.fst)
  obtain ⟨h1, h2⟩ := foldl_release_spec (expiredMacs st now) st hsub
  constructor
  · rw [clean_expired, h1]
    apply List.filter_congr
    intro p hp
    have hiff : p.1 ∈ expiredMacs st now ↔ p.2.is_expired now = true := by
      constructor
      · intro hmem
        obtain ⟨q, hq, hq1⟩ := List.mem_map.mp hmem
        obtain ⟨hqt, hqe⟩ := List.mem_filter.mp hq
        obtain rfl : q = p := keys_nodup_inj hnd hqt hp hq1
        exact hqe
      · intro he
        exact List.mem_map_of_mem Prod.fst (List.mem_filter.mpr ⟨hp, he⟩)
    cases hx : p.2.is_expired now with
    | true => simp [hiff, hx]
    | false => simp [hiff, hx]
  · rw [clean_expired, h2]
    congr 1
    show ((st.leased_ips.filter (fun p => p.2.is_expired now)).map
        Prod.fst).filterMap
        (fun m => (lookupLease st.leased_ips m).map (fun l => l.ip)) = _
    rw [List.filterMap_map]
    apply filterMap_eq_map_of_mem
    intro q hq
    rcases q with ⟨m, l⟩
    have hql : lookupLease st.leased_ips m = some l :=
      lookupLease_of_mem hnd (List.mem_filter.mp hq).1
    show (lookupLease st.leased_ips m).map (fun l2 => l2.ip) = _
    rw [hql]
    rfl

theorem C5_reclaim_witness :
    (clean_expired
        (⟨[(0, ⟨⟨10, 0, 0, 1⟩, 0, 10⟩), (1, ⟨⟨10, 0, 0, 2⟩, 90, 50⟩)],
          [⟨10, 0, 0, 3⟩]⟩ : ServerState Nat) 100).leased_ips =
      ([(0, ⟨⟨10, 0, 0, 1⟩, 0, 10⟩), (1, ⟨⟨10, 0, 0, 2⟩, 90, 50⟩)] :
          List (Nat × DHCPLease)).filter
        (fun p => !p.2.is_expired 100) ∧
    (clean_expired
        (⟨[(0, ⟨⟨10, 0, 0, 1⟩, 0, 10⟩), (1, ⟨⟨10, 0, 0, 2⟩, 90, 50⟩)],
          [⟨10, 0, 0, 3⟩]⟩ : ServerState Nat) 100).available_ips =
      [⟨10, 0, 0, 3⟩] ++
        (([(0, ⟨⟨10, 0, 0, 1⟩, 0, 10⟩), (1, ⟨⟨10, 0, 0, 2⟩, 90, 50⟩)] :
            List (Nat × DHCPLease)).filter
            (fun p => p.2.is_expired 100)).map (fun p => p.2.ip) :=
  C5_reclaim
    (⟨[(0, ⟨⟨10, 0, 0, 1⟩, 0, 10⟩), (1, ⟨⟨10, 0, 0, 2⟩, 90, 50⟩)],
      [⟨10, 0, 0, 3⟩]⟩ : ServerState Nat) 100 (by decide)

end DHCP
